import Mathlib

/-!
Verification of the AVL-tree C program (`src/new.c`) against its
natural-language specification.

The program manipulates heap-allocated `struct node` values holding an
`int data`, two child pointers and an `int height`.  Every node has a
unique owner (no sharing is ever created: `insert` attaches a freshly
allocated leaf, rotations only re-link children of a tree), so the heap
of nodes is faithfully modelled by the inductive type `Node` below and
each mutating C function by a function returning the updated tree.

One feature of the source needs an explicit modelling decision:
`createnode` mallocs a node and never writes its `height` field, so a
fresh node carries an indeterminate height.  We model this by passing
the indeterminate value as an explicit `junk` argument to `createnode`
(and through `insert`, which allocates at most one node per call).
Instantiating `junk` picks one possible concrete execution of the C
program; universally quantified theorems hold for every such execution.
-/

namespace AVL

/-- The `struct node` of the source: key (`data`), children, cached height.
`nil` is the NULL pointer. -/
inductive Node where
| nil : Node
| node (data : Int) (left : Node) (right : Node) (height : Int) : Node
deriving DecidableEq

/-- Child accessor for `root->left` (meaningful only on present nodes). -/
def Node.left : Node → Node
| .nil => .nil
| .node _ l _ _ => l

/-- Child accessor for `root->right` (meaningful only on present nodes). -/
def Node.right : Node → Node
| .nil => .nil
| .node _ _ r _ => r

/-- Field accessor for `root->data` (meaningful only on present nodes). -/
def Node.data : Node → Int
| .nil => 0
| .node d _ _ _ => d

/-- Field accessor for `root->height` (meaningful only on present nodes). -/
def Node.height : Node → Int
| .nil => 0
| .node _ _ _ h => h

/-- `createnode` of the source: allocates a node with the given key and
both children NULL.  The source never initializes the `height` field, so
the indeterminate value the allocation happens to contain is taken as
the explicit argument `junk`. -/
def createnode (d : Int) (junk : Int) : Node :=
  .node d .nil .nil junk

/-- `insert` of the source: plain BST descent (strictly smaller keys go
left, others right) attaching one fresh leaf, returning the same root.
Note the source's `insert` does not call `balance`.  The `junk` argument
is the indeterminate height of the one node this call may allocate. -/
def insert : Node → Int → Int → Node
| .nil, d, junk => createnode d junk
| .node rd l r h, d, junk =>
    if d < rd then .node rd (insert l d junk) r h
    else .node rd l (insert r d junk) h

/-- `getheight` of the source: 0 for NULL, else the stored height field. -/
def getheight : Node → Int
| .nil => 0
| .node _ _ _ h => h

/-- `max` of the source. -/
def max (a b : Int) : Int :=
  if a > b then a else b

/-- `updateheight` of the source: recomputes the root's own height field
from the children's stored heights.  The source dereferences NULL on an
absent root; no caller in the program reaches that case, and the `.nil`
branch here is an arbitrary total completion. -/
def updateheight : Node → Node
| .nil => .nil
| .node d l r _ => .node d l r (max (getheight l) (getheight r) + 1)

/-- `balancingfactor` of the source: 0 for NULL, else left stored height
minus right stored height. -/
def balancingfactor : Node → Int
| .nil => 0
| .node _ l r _ => getheight l - getheight r

/-- `leftrotation` of the source: the right child becomes the new root.
The source dereferences NULL when the root or its right child is absent
(undefined behaviour); the fallback branch is an arbitrary total
completion, unused by every theorem below. -/
def leftrotation : Node → Node
| .node d l (.node rd rl rr rh) h => .node rd (.node d l rl h) rr rh
| t => t

/-- `rightrotation` of the source: the left child becomes the new root.
Same remark on the NULL-dereferencing fallback as for `leftrotation`. -/
def rightrotation : Node → Node
| .node d (.node ld ll lr lh) r h => .node ld ll (.node d lr r h) lh
| t => t

/-- `rightleftrotation` of the source: right-rotate the right child,
then left-rotate the root. -/
def rightleftrotation : Node → Node
| .nil => .nil
| .node d l r h => leftrotation (.node d l (rightrotation r) h)

/-- `leftrightrotation` of the source: left-rotate the left child, then
right-rotate the root. -/
def leftrightrotation : Node → Node
| .nil => .nil
| .node d l r h => rightrotation (.node d (leftrotation l) r h)

/-- `balance` of the source: read the balance factor from the stored
child heights, refresh the root's own height field, then rotate when the
factor leaves `[-1, 1]`, inspecting the relevant child's factor to pick
a single or a composite rotation.  Rotations in this program do not
refresh any height field. -/
def balance (root : Node) : Node :=
  let bf := balancingfactor root
  let root' := updateheight root
  if bf > 1 then
    if balancingfactor root'.left < 0 then leftrightrotation root'
    else rightrotation root'
  else if bf < -1 then
    if balancingfactor root'.right > 0 then rightleftrotation root'
    else leftrotation root'
  else root'

/-- `inorder` of the source, with the printed keys collected in a list. -/
def inorder : Node → List Int
| .nil => []
| .node d l r _ => inorder l ++ [d] ++ inorder r

/-- The global `data` array of the source. -/
def data : List Int := [1, 2, 3, 4, 5]

/-- One iteration of `main`'s loop: `root = insert(root, k); root = balance(root);`. -/
def step (junk : Int) (t : Node) (k : Int) : Node :=
  balance (insert t k junk)

/-- Inserting a list of keys one at a time starting from the empty tree,
each insertion followed by the top-level `balance` call exactly as in
`main`'s loop body. -/
def runBal (junk : Int) (ks : List Int) : Node :=
  ks.foldl (step junk) .nil

/-- Inserting a list of keys one at a time starting from the empty tree
using the source's `insert` alone. -/
def plainRun (junk : Int) (ks : List Int) : Node :=
  ks.foldl (fun t k => insert t k junk) .nil

/-- The whole of `main`: create a node for `data[0]`, then insert and
balance each remaining element of `data`. -/
def mainRun (junk : Int) : Node :=
  match data with
  | [] => .nil
  | d :: rest => rest.foldl (step junk) (createnode d junk)

/-- Structural height of a tree: absent subtree 0, node one more than
the taller child.  (This is the height the spec reasons about, computed
from the shape, independent of the stored `height` fields.) -/
def realheight : Node → Nat
| .nil => 0
| .node _ l r _ => Nat.max (realheight l) (realheight r) + 1

/-- The AVL-balance check of the spec: at every node the structural
heights of the children differ by at most one. -/
def isBalanced : Node → Bool
| .nil => true
| .node _ l r _ =>
    decide ((realheight l : Int) - (realheight r : Int) ≤ 1) &&
    decide ((realheight r : Int) - (realheight l : Int) ≤ 1) &&
    isBalanced l && isBalanced r

/-- The height-field invariant of the spec: every stored `height` equals
one plus the maximum of the children's stored heights (absent child 0). -/
def heightsOk : Node → Bool
| .nil => true
| .node _ l r h =>
    decide (h = max (getheight l) (getheight r) + 1) &&
    heightsOk l && heightsOk r

/-- The multiset of `(key, stored height)` pairs of the nodes of a tree:
the tree's nodes with their entire mutable payload. -/
def pairs : Node → Multiset (Int × Int)
| .nil => 0
| .node d l r h => (d, h) ::ₘ (pairs l + pairs r)

/-- Number of nodes of a tree. -/
def size : Node → Nat
| .nil => 0
| .node _ l r _ => size l + size r + 1

/-- The list of all present subtrees of a tree. -/
def subtrees : Node → List Node
| .nil => []
| .node d l r h => .node d l r h :: (subtrees l ++ subtrees r)

/-- Boolean "every key in the tree satisfies `p`". -/
def allB (p : Int → Bool) : Node → Bool
| .nil => true
| .node d l r _ => p d && allB p l && allB p r

/-- Binary-search-tree order: keys strictly smaller in the left subtree,
keys greater or equal (duplicates) in the right subtree, recursively. -/
def isBST : Node → Bool
| .nil => true
| .node d l r _ =>
    allB (fun x => decide (x < d)) l && allB (fun x => decide (d ≤ x)) r &&
    isBST l && isBST r

/-- A heap-free binary tree: the shape and keys of a `Node` tree with the
`height` fields forgotten. -/
inductive BTree where
| nil : BTree
| node (data : Int) (left : BTree) (right : BTree) : BTree
deriving DecidableEq

/-- Forget the stored height fields of a tree. -/
def strip : Node → BTree
| .nil => .nil
| .node d l r _ => .node d (strip l) (strip r)

/-- Reference definition following the claim's words: a plain BST insert
that only descends by comparison and attaches one leaf at the reached
absent position, touching nothing else. -/
def plainInsert : BTree → Int → BTree
| .nil, k => .node k .nil .nil
| .node d l r, k =>
    if k < d then .node d (plainInsert l k) r
    else .node d l (plainInsert r k)

/-- Reference definition following the spec's words for `insert`: after
the recursive assignment of the child, call `balance(root)` and return
its result as the new subtree root (so every ancestor on the unwind is
rebalanced).  `balance`, `createnode` and the descent are those of the
source. -/
def insertSpec : Node → Int → Int → Node
| .nil, d, junk => createnode d junk
| .node rd l r h, d, junk =>
    if d < rd then balance (.node rd (insertSpec l d junk) r h)
    else balance (.node rd l (insertSpec r d junk) h)

/-- Reference definition following the spec's words for the reordered
`balance`: execute step 2 (`updateheight(root)`) before step 1 (reading
the balance factor), everything else unchanged. -/
def balanceVariant (root : Node) : Node :=
  let root' := updateheight root
  let bf := balancingfactor root'
  if bf > 1 then
    if balancingfactor root'.left < 0 then leftrightrotation root'
    else rightrotation root'
  else if bf < -1 then
    if balancingfactor root'.right > 0 then rightleftrotation root'
    else leftrotation root'
  else root'

end AVL

namespace AVL

/-! ### Helper lemmas -/

/-- `insert` preserves a key predicate that the new key satisfies. -/
theorem allB_insert (p : Int → Bool) (t : Node) (k j : Int)
    (hk : p k = true) (ht : allB p t = true) :
    allB p (insert t k j) = true := by
  induction t with
  | nil => simp [insert, createnode, allB, hk]
  | node d l r h ihl ihr =>
    simp only [allB, Bool.and_eq_true] at ht
    by_cases hc : k < d
    · simp only [insert, if_pos hc, allB, Bool.and_eq_true]
      exact ⟨⟨ht.1.1, ihl ht.1.2⟩, ht.2⟩
    · simp only [insert, if_neg hc, allB, Bool.and_eq_true]
      exact ⟨⟨ht.1.1, ht.1.2⟩, ihr ht.2⟩

/-- `insert` preserves the binary-search-tree order. -/
theorem isBST_insert (t : Node) (k j : Int) (ht : isBST t = true) :
    isBST (insert t k j) = true := by
  induction t with
  | nil => simp [insert, createnode, isBST, allB]
  | node d l r h ihl ihr =>
    simp only [isBST, Bool.and_eq_true] at ht
    obtain ⟨⟨⟨hal, har⟩, hbl⟩, hbr⟩ := ht
    by_cases hc : k < d
    · simp only [insert, if_pos hc, isBST, Bool.and_eq_true]
      exact ⟨⟨⟨allB_insert _ _ _ _ (by simpa using hc) hal, har⟩, ihl hbl⟩, hbr⟩
    · simp only [insert, if_neg hc, isBST, Bool.and_eq_true]
      exact ⟨⟨⟨hal, allB_insert _ _ _ _ (by simpa using not_lt.mp hc) har⟩, hbl⟩,
        ihr hbr⟩

/-- Every key listed by `inorder` satisfies a predicate holding of the tree. -/
theorem mem_inorder_allB (p : Int → Bool) (t : Node) (ht : allB p t = true) :
    ∀ x ∈ inorder t, p x = true := by
  induction t with
  | nil => simp [inorder]
  | node d l r h ihl ihr =>
    simp only [allB, Bool.and_eq_true] at ht
    intro x hx
    simp only [inorder, List.mem_append, List.mem_singleton] at hx
    rcases hx with hx | hx
    · rcases hx with hx | hx
      · exact ihl ht.1.2 x hx
      · simpa [hx] using ht.1.1
    · exact ihr ht.2 x hx

/-- The in-order traversal of a binary-search tree is non-decreasing. -/
theorem sorted_inorder (t : Node) (ht : isBST t = true) :
    (inorder t).Sorted (· ≤ ·) := by
  induction t with
  | nil => simp [inorder]
  | node d l r h ihl ihr =>
    simp only [isBST, Bool.and_eq_true] at ht
    obtain ⟨⟨⟨hal, har⟩, hbl⟩, hbr⟩ := ht
    have hlmem : ∀ x ∈ inorder l, x < d := by
      intro x hx
      simpa using mem_inorder_allB _ _ hal x hx
    have hrmem : ∀ x ∈ inorder r, d ≤ x := by
      intro x hx
      simpa using mem_inorder_allB _ _ har x hx
    have h1 : (inorder l).Sorted (· ≤ ·) := ihl hbl
    have h2 : (inorder r).Sorted (· ≤ ·) := ihr hbr
    simp only [inorder, List.append_assoc, List.singleton_append]
    refine List.pairwise_append.mpr
      ⟨h1, List.pairwise_cons.mpr ⟨hrmem, h2⟩, ?_⟩
    intro a ha b hb
    rcases List.mem_cons.mp hb with hb | hb
    · exact hb ▸ le_of_lt (hlmem a ha)
    · exact le_trans (le_of_lt (hlmem a ha)) (hrmem b hb)

/-- As a multiset, the in-order traversal after `insert` gains exactly
the inserted key (no binary-search-tree hypothesis needed). -/
theorem inorder_insert_m (t : Node) (k j : Int) :
    (inorder (insert t k j) : Multiset Int) = k ::ₘ (inorder t : Multiset Int) := by
  induction t with
  | nil => simp [insert, createnode, inorder]
  | node d l r h ihl ihr =>
    by_cases hc : k < d
    · simp only [insert, if_pos hc, inorder, ← Multiset.coe_add, ihl,
        Multiset.cons_add]
    · simp only [insert, if_neg hc, inorder, ← Multiset.coe_add, ihr,
        Multiset.cons_add, Multiset.add_cons]

/-- `insert` adds exactly one node. -/
theorem size_insert (t : Node) (k j : Int) :
    size (insert t k j) = size t + 1 := by
  induction t with
  | nil => simp [insert, createnode, size]
  | node d l r h ihl ihr =>
    by_cases hc : k < d
    · simp only [insert, if_pos hc, size, ihl]
      omega
    · simp only [insert, if_neg hc, size, ihr]
      omega

/-- Folding the source's `insert` over a key list keeps the
binary-search-tree order, adds the keys to the in-order multiset, and
adds one node per key. -/
theorem foldl_insert_props (ks : List Int) (t : Node) (j : Int)
    (ht : isBST t = true) :
    isBST (ks.foldl (fun a k => insert a k j) t) = true ∧
    (inorder (ks.foldl (fun a k => insert a k j) t) : Multiset Int) =
      (ks : Multiset Int) + (inorder t : Multiset Int) ∧
    size (ks.foldl (fun a k => insert a k j) t) = ks.length + size t := by
  induction ks generalizing t with
  | nil => simp [ht]
  | cons k ks ih =>
    obtain ⟨h1, h2, h3⟩ := ih (insert t k j) (isBST_insert t k j ht)
    refine ⟨h1, ?_, ?_⟩
    · rw [List.foldl_cons, h2, inorder_insert_m]
      simp [← Multiset.cons_coe, Multiset.cons_add, Multiset.add_cons]
    · rw [List.foldl_cons, h3, size_insert]
      simp only [List.length_cons]
      omega

/-- `insert` into a non-empty tree, stripped of heights, is exactly the
plain leaf-attaching BST insert. -/
theorem strip_insert (t : Node) (k j : Int) :
    strip (insert t k j) = plainInsert (strip t) k := by
  induction t with
  | nil => simp [insert, createnode, strip, plainInsert]
  | node d l r h ihl ihr =>
    by_cases hc : k < d
    · simp [insert, if_pos hc, strip, plainInsert, ihl]
    · simp [insert, if_neg hc, strip, plainInsert, ihr]

/-- `insert` adds the new key with the indeterminate height as a fresh
pair; all existing `(key, height)` pairs are untouched. -/
theorem pairs_insert (t : Node) (k j : Int) :
    pairs (insert t k j) = (k, j) ::ₘ pairs t := by
  induction t with
  | nil => simp [insert, createnode, pairs]
  | node d l r h ihl ihr =>
    by_cases hc : k < d
    · simp only [insert, if_pos hc, pairs, ihl, Multiset.cons_add,
        Multiset.cons_swap]
    · simp only [insert, if_neg hc, pairs, ihr, Multiset.cons_add,
        Multiset.add_cons, Multiset.cons_swap]

/-- The node allocated by `insert` appears as a leaf subtree of the result. -/
theorem subtrees_insert (t : Node) (k j : Int) :
    (Node.node k .nil .nil j) ∈ subtrees (insert t k j) := by
  induction t with
  | nil => simp [insert, createnode, subtrees]
  | node d l r h ihl ihr =>
    by_cases hc : k < d
    · simp only [insert, if_pos hc, subtrees, List.mem_cons, List.mem_append]
      exact Or.inr (Or.inl ihl)
    · simp only [insert, if_neg hc, subtrees, List.mem_cons, List.mem_append]
      exact Or.inr (Or.inr ihr)

end AVL

namespace AVL

/-! ### Claim theorems -/

/-- C1 (divergence witness): the source's `insert` does not call
`balance`.  Inserting key 2 into the single-node tree with key 1 and
stored height 0 returns the root with its height field untouched (0),
while the spec's reference insert (recursive assignment, then
`balance(root)`) refreshes the root's height to 1.  The two functions
disagree at this input. -/
theorem insert_omits_balance :
    insert (.node 1 .nil .nil 0) 2 0 = .node 1 .nil (.node 2 .nil .nil 0) 0 ∧
    insertSpec (.node 1 .nil .nil 0) 2 0 = .node 1 .nil (.node 2 .nil .nil 0) 1 ∧
    insert (.node 1 .nil .nil 0) 2 0 ≠ insertSpec (.node 1 .nil .nil 0) 2 0 := by
  decide

/-- C2 (divergence witness): after inserting 1, 2, 3 starting from the
empty tree — whether each insertion is followed by the program's
top-level `balance` call as in `main`, or performed by the spec's
balancing `insert` — the resulting tree is the right chain 1-2-3, whose
root violates the AVL condition: its child heights are 0 and 2.
(Fresh-node heights instantiated to 0, the value most favourable to the
claim.) -/
theorem avl_invariant_fails :
    isBalanced (runBal 0 [1, 2, 3]) = false ∧
    isBalanced (List.foldl (fun t k => insertSpec t k 0) .nil [1, 2, 3]) = false := by
  decide

/-- C3: inserting any finite list of keys one at a time with the
source's `insert`, starting from the empty tree, yields a tree whose
in-order traversal is non-decreasing, whose in-order multiset is
exactly the multiset of inserted keys, and whose node count is the
number of insertions — for every value of the indeterminate fresh-node
height. -/
theorem inorder_sorted_multiset (ks : List Int) (j : Int) :
    (inorder (plainRun j ks)).Sorted (· ≤ ·) ∧
    (inorder (plainRun j ks) : Multiset Int) = (ks : Multiset Int) ∧
    size (plainRun j ks) = ks.length := by
  obtain ⟨h1, h2, h3⟩ := foldl_insert_props ks .nil j rfl
  refine ⟨sorted_inorder _ h1, ?_, ?_⟩
  · simpa [plainRun, inorder, size] using h2
  · simpa [plainRun, inorder, size] using h3

/-- C4 (divergence witness): after inserting 1 then 2 from the empty
tree with `main`'s per-insert balancing (fresh heights instantiated to
0), the leaf holding 2 still has stored height 0 instead of
`1 + max(0, 0) = 1`: no code path ever updates a non-root height field. -/
theorem height_fields_fail :
    heightsOk (runBal 0 [1, 2]) = false ∧
    runBal 0 [1, 2] = .node 1 .nil (.node 2 .nil .nil 0) 1 := by
  decide

/-- C5 (divergence witness): running exactly `main` on the fixed array
1, 2, 3, 4, 5 (fresh heights instantiated to 0) produces the
unrotated right chain: in-order traversal 1 2 3 4 5, but structural
height 5, not 3 — no rotation ever fires because the stored heights the
balance factor reads are never maintained. -/
theorem main_yields_chain :
    mainRun 0 =
      .node 1 .nil
        (.node 2 .nil (.node 3 .nil (.node 4 .nil (.node 5 .nil .nil 0) 0) 0) 0) 1 ∧
    inorder (mainRun 0) = [1, 2, 3, 4, 5] ∧
    realheight (mainRun 0) = 5 := by
  decide

/-- C6 (divergence witness): inserting 1, 3, 2 from the empty tree with
per-insert balancing (fresh heights instantiated to 0) performs no
rotation at all: the result keeps root key 1 with right child 3 and 2
below 3, not the claimed rotated tree with root 2. -/
theorem run_132_no_rotation :
    runBal 0 [1, 3, 2] = .node 1 .nil (.node 3 (.node 2 .nil .nil 0) .nil 0) 1 ∧
    (runBal 0 [1, 3, 2]).data = 1 := by
  decide

/-- C7: a left rotation on a root with a present right child, and a
right rotation on a root with a present left child, preserve both the
in-order key sequence and the multiset of `(key, stored height)` node
payloads: rotations only re-link child pointers, creating and dropping
no node. -/
theorem rotations_preserve_nodes (d rd h rh d2 ld2 h2 lh2 : Int)
    (l rl rr ll2 lr2 r2 : Node) :
    inorder (leftrotation (.node d l (.node rd rl rr rh) h)) =
      inorder (.node d l (.node rd rl rr rh) h) ∧
    pairs (leftrotation (.node d l (.node rd rl rr rh) h)) =
      pairs (.node d l (.node rd rl rr rh) h) ∧
    inorder (rightrotation (.node d2 (.node ld2 ll2 lr2 lh2) r2 h2)) =
      inorder (.node d2 (.node ld2 ll2 lr2 lh2) r2 h2) ∧
    pairs (rightrotation (.node d2 (.node ld2 ll2 lr2 lh2) r2 h2)) =
      pairs (.node d2 (.node ld2 ll2 lr2 lh2) r2 h2) := by
  refine ⟨?_, ?_, ?_, ?_⟩
  · simp [leftrotation, inorder, List.append_assoc]
  · simp only [leftrotation, pairs, ← Multiset.singleton_add]
    abel
  · simp [rightrotation, inorder, List.append_assoc]
  · simp only [rightrotation, pairs, ← Multiset.singleton_add]
    abel

/-- C8 (divergence witness): a node fresh from `createnode` carries
whatever indeterminate value its allocation held — here 3, not 0 — and
the program does observe it: with indeterminate value 3 the first
`balance` of the run on keys 1, 2 reads the fresh leaf's height,
computes balance factor -3 and left-rotates, making 2 the root, while
with value 0 the root stays 1.  The program's result depends on the
uninitialized field. -/
theorem fresh_height_observed :
    getheight (createnode 1 3) = 3 ∧
    (runBal 3 [1, 2]).data = 2 ∧
    (runBal 0 [1, 2]).data = 1 := by
  decide

/-- C9: for every present root, `balance` computes the same result as
the variant that runs `updateheight(root)` before reading the balance
factor: `updateheight` writes only the root's own height field and
`balancingfactor` reads only the children's stored heights, so the
rotation decision is unaffected by the order of the two steps. -/
theorem balance_step_order_irrelevant (d h : Int) (l r : Node) :
    balance (.node d l r h) = balanceVariant (.node d l r h) := rfl

/-- C10: the source's `insert` returns the very root it was given (same
key, same stored height), changes no existing node's key or height —
the node payload multiset gains exactly the one pair `(key, junk)` —
attaches the new key as a leaf, and performs no rotation: forgetting
heights, the result is exactly the plain leaf-attaching BST insert of
the key into the old tree. -/
theorem insert_frame (t : Node) (k j : Int) (ht : t ≠ .nil) :
    (insert t k j).data = t.data ∧
    (insert t k j).height = t.height ∧
    pairs (insert t k j) = (k, j) ::ₘ pairs t ∧
    strip (insert t k j) = plainInsert (strip t) k ∧
    (Node.node k .nil .nil j) ∈ subtrees (insert t k j) := by
  refine ⟨?_, ?_, pairs_insert t k j, strip_insert t k j, subtrees_insert t k j⟩
  · cases t with
    | nil => exact absurd rfl ht
    | node d l r h =>
      by_cases hc : k < d
      · simp [insert, if_pos hc, Node.data]
      · simp [insert, if_neg hc, Node.data]
  · cases t with
    | nil => exact absurd rfl ht
    | node d l r h =>
      by_cases hc : k < d
      · simp [insert, if_pos hc, Node.height]
      · simp [insert, if_neg hc, Node.height]

/-- Witness for C10: instantiation at the single-node tree with key 5
and stored height 7, inserting key 3 with indeterminate height 9. -/
theorem insert_frame_witness :
    (insert (.node 5 .nil .nil 7) 3 9).data = (Node.node 5 .nil .nil 7).data ∧
    (insert (.node 5 .nil .nil 7) 3 9).height = (Node.node 5 .nil .nil 7).height ∧
    pairs (insert (.node 5 .nil .nil 7) 3 9) =
      ((3 : Int), (9 : Int)) ::ₘ pairs (.node 5 .nil .nil 7) ∧
    strip (insert (.node 5 .nil .nil 7) 3 9) =
      plainInsert (strip (.node 5 .nil .nil 7)) 3 ∧
    (Node.node 3 .nil .nil 9) ∈ subtrees (insert (.node 5 .nil .nil 7) 3 9) :=
  insert_frame (.node 5 .nil .nil 7) 3 9 (by decide)

end AVL
